import Mathlib

/-!
# SHT21 humidity / temperature sensor driver (mbed), `src/main.cpp`

A shallow embedding of the driver class `SHT21`.

* Bytes (`uint8_t`, `char`) and 16-bit words (`uint16_t`) are natural numbers; every
  store into a fixed-width variable is written with an explicit `% 256` or `% 65536`.
* The I2C bus and the millisecond timer are an explicit `World`: a log of the events
  the driver caused (oldest first) and the queue of responses the device will give to
  the reads still to come.  A method of the class is a function on the handle state.
* `temperature` and `humidity` give the `float` result as the exact rational value of the
  formula; `temperatureFloat` and `humidityFloat` give it as the machine computes it, with
  the rounding of every `double` operation and of the narrowing to `float`.
-/

namespace SHT21

/-! ## The environment: bus and timer -/

/-- What the driver does to its environment: a bus write of some bytes to an address, a
bus read of a number of bytes from an address, or a blocking delay in milliseconds. -/
inductive Event where
  | write (addr : Nat) (bytes : List Nat)
  | read (addr : Nat) (count : Nat)
  | wait (ms : Nat)
  deriving DecidableEq, Repr

/-- The bus and timer as seen by the driver: `trace` is the log of events so far, oldest
first; `rx` holds, in order, the byte strings the device answers to the coming reads. -/
structure World where
  trace : List Event
  rx : List (List Nat)
  deriving DecidableEq, Repr

/-- The call `i2c.write(address, data, length)`: sends the first `length` bytes of `data`. -/
def World.write (w : World) (address : Nat) (data : List Nat) (length : Nat) : World :=
  { w with trace := w.trace ++ [Event.write address (data.take length)] }

/-- Storing a response into a caller's buffer: the first `length` bytes of the response
overwrite the front of the buffer, each stored as a byte; the rest of the buffer stays. -/
def fillBuffer (buf resp : List Nat) (length : Nat) : List Nat :=
  (resp.take length).map (fun b => b % 256) ++ buf.drop (resp.take length).length

/-- The call `i2c.read(address, data, length)`: consumes the device's next response and
stores it into the buffer `data`. -/
def World.read (w : World) (address : Nat) (data : List Nat) (length : Nat) :
    List Nat × World :=
  (fillBuffer data (w.rx.headD []) length,
   { trace := w.trace ++ [Event.read address length], rx := w.rx.tail })

/-- The call `wait_ms(ms)`. -/
def World.wait_ms (w : World) (ms : Nat) : World :=
  { w with trace := w.trace ++ [Event.wait ms] }

/-- Whether an event is a bus operation (a write or a read) rather than a delay. -/
def Event.isBusOp : Event → Bool
  | Event.write _ _ => true
  | Event.read _ _ => true
  | Event.wait _ => false

/-- The bus operations of a log: its writes and reads, in order, without the delays. -/
def busOps (t : List Event) : List Event :=
  t.filter Event.isBusOp

/-! ## The class -/

/-- The object state: the device address `addr_` and the bus `i2c_` it refers to. -/
structure Handle where
  addr_ : Nat
  i2c_ : World
  deriving DecidableEq, Repr

/-- Member of `enum commands`. -/
def TRIGGER_T_MEASUREMENT_HM : Nat := 0xE3
/-- Member of `enum commands`. -/
def TRIGGER_RH_MEASUREMENT_HM : Nat := 0xE5
/-- Member of `enum commands`. -/
def TRIGGER_T_MEASUREMENT_NHM : Nat := 0xF3
/-- Member of `enum commands`. -/
def TRIGGER_RH_MEASUREMENT_NHM : Nat := 0xF5
/-- Member of `enum commands`. -/
def USER_REGISTER_W : Nat := 0xE6
/-- Member of `enum commands`. -/
def USER_REGISTER_R : Nat := 0xE7
/-- Member of `enum commands`. -/
def SOFT_RESET : Nat := 0xFE

/-- The constant `const uint16_t SHT21::POLYNOMIAL = 0x131`. -/
def POLYNOMIAL : Nat := 0x131

/-! ### `crcChecksum` -/

/-- Body of the inner loop of `crcChecksum`: `if (crc & 0x80) crc = (crc << 1) ^ POLYNOMIAL;
else crc = (crc << 1);`, the result stored back into the `uint8_t crc`. -/
def crcShift (crc : Nat) : Nat :=
  if crc &&& 0x80 ≠ 0 then ((crc <<< 1) ^^^ POLYNOMIAL) % 256 else (crc <<< 1) % 256

/-- The inner loop `for (uint8_t j = 8; j > 0; --j)`, from the counter value `j`. -/
def crcBits : Nat → Nat → Nat
  | 0, crc => crc
  | j + 1, crc => crcBits j (crcShift crc)

/-- The outer loop `for (uint8_t i = 0; i < sz; ++i)` with `n = sz - i` iterations still to
run: `crc ^= data[i]`, then the inner loop. -/
def crcLoop (data : List Nat) : Nat → Nat → Nat → Nat
  | 0, _, crc => crc
  | n + 1, i, crc => crcLoop data n (i + 1) (crcBits 8 ((crc ^^^ data.getD i 0) % 256))

/-- The function `SHT21::crcChecksum(data, sz, checksum)`: `crc` starts at 0, the loop runs
over the first `sz` bytes, and the result is `crc == checksum`. -/
def crcChecksum (data : List Nat) (sz checksum : Nat) : Bool :=
  crcLoop data sz 0 0 == checksum

/-! ## Reference CRC-8: a polynomial remainder over GF(2)

A polynomial over GF(2) is the natural number whose bit `i` is the coefficient of `x^i`:
adding two polynomials is `^^^`, multiplying by `x^k` is `<<< k`. -/

/-- The generator polynomial `x^8 + x^5 + x^4 + 1`. -/
def generator : Nat := 2 ^ 8 + 2 ^ 5 + 2 ^ 4 + 1

/-- The product `q * p` over GF(2), the factor `q` given by its coefficients, the constant
coefficient first. -/
def gf2Mul : List Bool → Nat → Nat
  | [], _ => 0
  | c :: q, p => (if c then p else 0) ^^^ (gf2Mul q p <<< 1)

/-- Long division by `p` of degree `d`: the coefficients of `x^(d+k-1)` down to `x^d` of
`a` are cancelled in turn, each by adding `p * x^j`. -/
def gf2ModAux (p d : Nat) : Nat → Nat → Nat
  | 0, a => a
  | k + 1, a => gf2ModAux p d k (if a.testBit (d + k) then a ^^^ (p <<< k) else a)

/-- Counting the coefficients of a polynomial by halving, at most `fuel` times. -/
def gf2LengthAux : Nat → Nat → Nat
  | 0, _ => 0
  | fuel + 1, a => if a = 0 then 0 else gf2LengthAux fuel (a / 2) + 1

/-- The number of coefficients of a polynomial: 0 for the zero polynomial, and the degree
plus one for any other. -/
def gf2Length (a : Nat) : Nat :=
  gf2LengthAux a a

/-- The remainder of the polynomial `a` modulo the polynomial `p` over GF(2): long
division from the leading coefficient of `a` down to the degree of `p`. -/
def gf2Mod (a p : Nat) : Nat :=
  gf2ModAux p (gf2Length p - 1) (gf2Length a - (gf2Length p - 1)) a

/-- The payload as the polynomial `M`, read MSB-first: the bytes in big-endian order. -/
def payloadPoly (payload : List Nat) : Nat :=
  payload.foldl (fun m b => m * 256 + b) 0

/-- The reference CRC-8 of a payload: the remainder of `M(x) * x^8` modulo the generator,
with zero initial register and no final XOR. -/
def crc8 (payload : List Nat) : Nat :=
  gf2Mod (payloadPoly payload <<< 8) generator

/-- The polynomial `m` is a multiple of the polynomial `p` over GF(2). -/
def IsMultiple (p m : Nat) : Prop :=
  ∃ q : List Bool, m = gf2Mul q p

/-- Two polynomials are congruent modulo the generator: their sum is a multiple of it. -/
def Congruent (a b : Nat) : Prop :=
  IsMultiple generator (a ^^^ b)

/-! ### `reset`, `readRaw`, `temperature`, `humidity` -/

/-- The method `SHT21::reset()`: writes the one byte `SOFT_RESET`, then `wait_ms(15)`. -/
def reset (s : Handle) : Handle :=
  let pcmd := [SOFT_RESET]
  let w := s.i2c_.write s.addr_ pcmd 1
  { s with i2c_ := w.wait_ms 15 }

/-- The method `SHT21::readRaw(cmd)`. The local arrays start zeroed. -/
def readRaw (s : Handle) (cmd : Nat) : Nat × Handle :=
  let pcmd := [cmd % 256]
  let w := s.i2c_.write s.addr_ pcmd 1
  let (data, w) := w.read s.addr_ [0, 0] 2
  let (ck, w) := w.read s.addr_ [0] 1
  let checksum := ck.getD 0 0
  let result := (data.getD 0 0 <<< 8) % 65536
  let result := (result + data.getD 1 0) % 65536
  let s := { s with i2c_ := w }
  if crcChecksum data 2 checksum then
    (1, reset s)
  else
    (result, s)

/-- The statement `r &= ~0x0003` on a `uint16_t r`. -/
def clearStatus (r : Nat) : Nat :=
  (r &&& 0xFFFC) % 65536

/-- The arithmetic of `temperature()` on the raw value `r` that `readRaw` returned. -/
def temperatureOfRaw (r : Nat) : ℚ :=
  let r := clearStatus r
  (-46.85 + 175.72 / 65536 * (r : ℚ))

/-- The arithmetic of `humidity()` on the raw value `r` that `readRaw` returned. -/
def humidityOfRaw (r : Nat) : ℚ :=
  let r := clearStatus r
  (-6.0 + 125.0 / 65536 * (r : ℚ))

/-- The method `SHT21::temperature()`. -/
def temperature (s : Handle) : ℚ × Handle :=
  let (r, s) := readRaw s TRIGGER_T_MEASUREMENT_HM
  (temperatureOfRaw r, s)

/-- The method `SHT21::humidity()`. -/
def humidity (s : Handle) : ℚ × Handle :=
  let (r, s) := readRaw s TRIGGER_RH_MEASUREMENT_HM
  (humidityOfRaw r, s)

/-! ### `serialNumber` -/

/-- The method `SHT21::serialNumber(serialNumber)`; `out` is the caller's buffer, of at
least 9 slots. The local array `data` starts zeroed; an increment of `i` whose value
is overwritten by `i = 0` before it is used is left out. -/
def serialNumber (s : Handle) (out : List Nat) : List Nat × Handle :=
  let data := [0, 0, 0, 0, 0, 0, 0, 0]
  let pcmd0 := [0xFA, 0x0F]
  let pcmd1 := [0xFC, 0xC9]
  let i := 0
  let w := s.i2c_.write s.addr_ pcmd0 2
  let (data, w) := w.read s.addr_ data 8
  let out := out.set 5 (data.getD i 0)
  let i := i + 1
  let i := i + 1
  let out := out.set 4 (data.getD i 0)
  let i := i + 1
  let i := i + 1
  let out := out.set 3 (data.getD i 0)
  let i := i + 1
  let i := i + 1
  let out := out.set 2 (data.getD i 0)
  let i := 0
  let w := w.write s.addr_ pcmd1 2
  let (data, w) := w.read s.addr_ data 6
  let out := out.set 1 (data.getD i 0)
  let i := i + 1
  let out := out.set 0 (data.getD i 0)
  let i := i + 1
  let i := i + 1
  let out := out.set 7 (data.getD i 0)
  let i := i + 1
  let out := out.set 8 (data.getD i 0)
  (out, { s with i2c_ := w })


/-! ### Construction -/

/-- The default argument `char addr = (0x40 << 1)` of both constructors, stored in a
`char` (taken as unsigned, as on the ARM targets of mbed). -/
def defaultAddr : Nat :=
  (0x40 <<< 1) % 256

/-- The constructors `SHT21(I2C &i2c, char addr)` and `SHT21(PinName sda, PinName scl,
char addr)`: `addr_(addr)` and `i2c_` bound to the given bus, or to the bus newly made on
the two pins. -/
def construct (i2c : World) (addr : Nat) : Handle :=
  { addr_ := addr % 256, i2c_ := i2c }

/-- A construction without an explicit address, such as the global
`SHT21 sht21(PB_9, PB_8)`: the default argument is used. -/
def constructDefault (i2c : World) : Handle :=
  construct i2c defaultAddr

/-! ### Observing bus traffic -/

/-- Whether an event, if it is a bus operation, carries the address `a`. -/
def Event.onAddress (a : Nat) : Event → Bool
  | Event.write b _ => b == a
  | Event.read b _ => b == a
  | Event.wait _ => true

/-- Whether an event, if it is a write, carries one of the given payloads. -/
def Event.writesOneOf (payloads : List (List Nat)) : Event → Bool
  | Event.write _ bytes => payloads.contains bytes
  | Event.read _ _ => true
  | Event.wait _ => true

/-- Whether an event is a write whose first byte, the command byte, is one of `codes`. -/
def Event.hasCommandIn (codes : List Nat) : Event → Bool
  | Event.write _ bytes => codes.contains (bytes.headD 0) && !bytes.isEmpty
  | Event.read _ _ => false
  | Event.wait _ => false

/-- A call of one of the four public methods; `serialNumber` comes with the caller's
buffer. -/
inductive Call where
  | temperature
  | humidity
  | reset
  | serialNumber (out : List Nat)
  deriving DecidableEq, Repr

/-- The handle after one call of a public method, its result dropped. -/
def Call.exec (s : Handle) : Call → Handle
  | Call.temperature => (SHT21.temperature s).2
  | Call.humidity => (SHT21.humidity s).2
  | Call.reset => SHT21.reset s
  | Call.serialNumber out => (SHT21.serialNumber s out).2

/-- The handle after a sequence of calls of the public methods, in order. -/
def run (s : Handle) (calls : List Call) : Handle :=
  calls.foldl Call.exec s

/-! ### Floating-point evaluation of the return statements

The return statements of `temperature()` and `humidity()` are evaluated in `double`
(IEEE 754 binary64) and the result is narrowed to `float` (binary32), each step rounding to
nearest, ties to even. A floating-point value is kept as a fraction of integers. No value
of these two expressions reaches magnitude `2^8`, so overflow to infinity is left out. -/

/-- A rational number as a fraction of integers, not reduced. -/
structure Frac where
  num : Int
  den : Nat
  deriving DecidableEq, Repr

/-- Counting the binary digits of a natural number by halving, at most `fuel` times. -/
def bitLengthAux : Nat → Nat → Nat
  | 0, _ => 0
  | fuel + 1, n => if n = 0 then 0 else bitLengthAux fuel (n / 2) + 1

/-- The number of binary digits of a natural number: `2^(bitLength n - 1) ≤ n < 2^bitLength n`
for `n > 0`. -/
def bitLength (n : Nat) : Nat :=
  bitLengthAux n n

/-- The binary exponent of the positive fraction `n / d`: the integer `e` with
`2^e ≤ n / d < 2^(e+1)`. -/
def binaryExponent (n d : Nat) : Int :=
  let e : Int := (bitLength n : Int) - (bitLength d : Int)
  if (if 0 ≤ e then d * 2 ^ e.toNat ≤ n else d ≤ n * 2 ^ (-e).toNat) then e else e - 1

/-- The fraction `n / d` rounded to the nearest natural number, a tie to the even one. -/
def roundHalfEven (n d : Nat) : Nat :=
  let q := n / d
  let r := n % d
  if 2 * r < d then q
  else if d < 2 * r then q + 1
  else if q % 2 = 0 then q else q + 1

/-- A binary floating-point format: the number of significand bits and the least exponent
of a normal number. -/
structure FloatFormat where
  prec : Nat
  emin : Int
  deriving DecidableEq, Repr

/-- The type `float`: IEEE 754 binary32. -/
def binary32 : FloatFormat :=
  ⟨24, -126⟩

/-- The type `double`: IEEE 754 binary64. -/
def binary64 : FloatFormat :=
  ⟨53, -1022⟩

/-- Rounding to the nearest value of a format, ties to even: with `e` the binary exponent
of `x` (not below `emin`), the spacing of the format around `x` is `2^(e - prec + 1)`, and
`x` divided by the spacing is rounded to an integer. -/
def FloatFormat.round (f : FloatFormat) (x : Frac) : Frac :=
  if x.num = 0 then ⟨0, 1⟩
  else
    let n := x.num.natAbs
    let d := x.den
    let e := max (binaryExponent n d) f.emin
    let k : Int := (f.prec : Int) - 1 - e
    let m := if 0 ≤ k then roundHalfEven (n * 2 ^ k.toNat) d
      else roundHalfEven n (d * 2 ^ (-k).toNat)
    let rn : Nat := if 0 ≤ k then m else m * 2 ^ (-k).toNat
    let rd : Nat := if 0 ≤ k then 2 ^ k.toNat else 1
    ⟨if x.num < 0 then -(rn : Int) else (rn : Int), rd⟩

theorem shiftLeft_xor (a b k : Nat) : (a ^^^ b) <<< k = (a <<< k) ^^^ (b <<< k) := by
  apply Nat.eq_of_testBit_eq
  intro i
  simp only [Nat.testBit_shiftLeft, Nat.testBit_xor]
  by_cases h : i ≥ k <;> simp [h]

theorem xor_xor_xor_comm (a b c d : Nat) : (a ^^^ b) ^^^ (c ^^^ d) = (a ^^^ c) ^^^ (b ^^^ d) := by
  apply Nat.eq_of_testBit_eq
  intro i
  simp only [Nat.testBit_xor]
  cases a.testBit i <;> cases b.testBit i <;> cases c.testBit i <;> cases d.testBit i <;> rfl

theorem lt_two_pow_of_testBit_false {x n : Nat} (hx : x < 2 ^ (n + 1))
    (hb : x.testBit n = false) : x < 2 ^ n := by
  apply Nat.lt_pow_two_of_testBit
  intro i hi
  rcases Nat.eq_or_lt_of_le hi with h | h
  · rw [← h]; exact hb
  · apply Nat.testBit_lt_two_pow
    exact lt_of_lt_of_le hx (Nat.pow_le_pow_right (by decide) h)

theorem mul_256_add (m b : Nat) (hb : b < 256) : m * 256 + b = (m <<< 8) ^^^ b := by
  have h := Nat.mul_add_lt_is_or (i := 8) (b := b) (by simpa using hb) m
  have e : m * 256 + b = 2 ^ 8 * m + b := by ring
  rw [e, h]
  apply Nat.eq_of_testBit_eq
  intro i
  have e2 : 2 ^ 8 * m = m <<< 8 := by rw [Nat.shiftLeft_eq]; ring
  rw [e2]
  simp only [Nat.testBit_or, Nat.testBit_xor, Nat.testBit_shiftLeft]
  by_cases hi : i ≥ 8
  · have : b.testBit i = false := by
      apply Nat.testBit_lt_two_pow
      exact lt_of_lt_of_le hb (by
        calc 256 = 2 ^ 8 := by norm_num
          _ ≤ 2 ^ i := Nat.pow_le_pow_right (by decide) hi)
    simp [this]
  · simp [hi]


/-! ## Multiples of a polynomial over GF(2) -/

theorem isMultiple_zero (p : Nat) : IsMultiple p 0 :=
  ⟨[], rfl⟩

theorem isMultiple_self (p : Nat) : IsMultiple p p :=
  ⟨[true], by simp [gf2Mul]⟩

theorem isMultiple_shiftLeft {p m : Nat} (h : IsMultiple p m) (k : Nat) :
    IsMultiple p (m <<< k) := by
  induction k with
  | zero => simpa using h
  | succ k ih =>
    obtain ⟨q, hq⟩ := ih
    refine ⟨false :: q, ?_⟩
    have e : m <<< (k + 1) = (m <<< k) <<< 1 := Nat.shiftLeft_add m k 1
    rw [e, hq]
    simp [gf2Mul]

theorem gf2Mul_xor (p : Nat) (q₁ : List Bool) :
    ∀ q₂ : List Bool, ∃ q, gf2Mul q p = gf2Mul q₁ p ^^^ gf2Mul q₂ p := by
  induction q₁ with
  | nil => intro q₂; exact ⟨q₂, by simp [gf2Mul]⟩
  | cons c₁ t₁ ih =>
    intro q₂
    cases q₂ with
    | nil => exact ⟨c₁ :: t₁, by simp [gf2Mul]⟩
    | cons c₂ t₂ =>
      obtain ⟨t, ht⟩ := ih t₂
      refine ⟨(c₁ ^^ c₂) :: t, ?_⟩
      simp only [gf2Mul]
      rw [ht, shiftLeft_xor, xor_xor_xor_comm (if c₁ = true then p else 0)]
      congr 1
      cases c₁ <;> cases c₂ <;> simp

theorem isMultiple_xor {p a b : Nat} (ha : IsMultiple p a) (hb : IsMultiple p b) :
    IsMultiple p (a ^^^ b) := by
  obtain ⟨qa, rfl⟩ := ha
  obtain ⟨qb, rfl⟩ := hb
  obtain ⟨q, hq⟩ := gf2Mul_xor p qa qb
  exact ⟨q, hq.symm⟩

theorem xor_ge_of_lt {x y n : Nat} (hx : 2 ^ n ≤ x) (hy : y < 2 ^ n) : 2 ^ n ≤ x ^^^ y := by
  by_contra hlt
  have h1 : x ^^^ y < 2 ^ n := Nat.lt_of_not_le hlt
  have h2 : (x ^^^ y) ^^^ y < 2 ^ n := Nat.xor_lt_two_pow h1 hy
  rw [Nat.xor_cancel_right] at h2
  omega

/-- A multiple of the generator is zero or has degree at least 8. -/
theorem gf2Mul_generator_zero_or_ge (q : List Bool) :
    gf2Mul q generator = 0 ∨ 256 ≤ gf2Mul q generator := by
  induction q with
  | nil => left; rfl
  | cons c t ih =>
    simp only [gf2Mul]
    rcases ih with h | h
    · rw [h]
      cases c
      · left; decide
      · right; decide
    · right
      have h512 : 2 ^ 9 ≤ gf2Mul t generator <<< 1 := by
        rw [Nat.shiftLeft_eq]; omega
      have hg : (if c = true then generator else 0) < 2 ^ 9 := by
        cases c <;> decide
      have := xor_ge_of_lt h512 hg
      rw [Nat.xor_comm] at this
      omega

theorem isMultiple_generator_lt {m : Nat} (h : IsMultiple generator m) (hm : m < 256) :
    m = 0 := by
  obtain ⟨q, rfl⟩ := h
  rcases gf2Mul_generator_zero_or_ge q with h0 | hge
  · exact h0
  · omega

/-! ## Congruence modulo the generator -/

theorem Congruent.refl (a : Nat) : Congruent a a := by
  unfold Congruent
  rw [Nat.xor_self]
  exact isMultiple_zero _

theorem Congruent.symm {a b : Nat} (h : Congruent a b) : Congruent b a := by
  unfold Congruent at *
  rwa [Nat.xor_comm]

theorem Congruent.trans {a b c : Nat} (h₁ : Congruent a b) (h₂ : Congruent b c) :
    Congruent a c := by
  unfold Congruent at *
  have h := isMultiple_xor h₁ h₂
  have e : (a ^^^ b) ^^^ (b ^^^ c) = a ^^^ c := by
    rw [Nat.xor_assoc, Nat.xor_cancel_left]
  rwa [e] at h

theorem Congruent.xor_right {a b : Nat} (h : Congruent a b) (c : Nat) :
    Congruent (a ^^^ c) (b ^^^ c) := by
  unfold Congruent at *
  have e : (a ^^^ c) ^^^ (b ^^^ c) = a ^^^ b := by
    rw [xor_xor_xor_comm, Nat.xor_self, Nat.xor_zero]
  rwa [e]

theorem Congruent.shiftLeft {a b : Nat} (h : Congruent a b) (k : Nat) :
    Congruent (a <<< k) (b <<< k) := by
  unfold Congruent at *
  rw [← shiftLeft_xor]
  exact isMultiple_shiftLeft h k

/-- Remainders are unique: congruent polynomials of degree below 8 are equal. -/
theorem Congruent.eq_of_lt {a b : Nat} (h : Congruent a b) (ha : a < 256) (hb : b < 256) :
    a = b := by
  have hlt : a ^^^ b < 2 ^ 8 := Nat.xor_lt_two_pow (by simpa using ha) (by simpa using hb)
  have h0 := isMultiple_generator_lt h (by simpa using hlt)
  have : (a ^^^ b) ^^^ b = 0 ^^^ b := by rw [h0]
  rwa [Nat.xor_cancel_right, Nat.zero_xor] at this

/-! ## The register of `crcChecksum` is a remainder -/

set_option maxRecDepth 20000 in
theorem crcShift_eq : ∀ s : Nat, s < 256 →
    crcShift s < 256 ∧
      (crcShift s = s <<< 1 ∨ crcShift s = (s <<< 1) ^^^ generator) := by
  decide

theorem crcShift_lt {s : Nat} (hs : s < 256) : crcShift s < 256 :=
  (crcShift_eq s hs).1

/-- One round of the inner loop multiplies the register by `x` modulo the generator. -/
theorem crcShift_congruent {s : Nat} (hs : s < 256) : Congruent (s <<< 1) (crcShift s) := by
  rcases (crcShift_eq s hs).2 with h | h
  · rw [h]; exact Congruent.refl _
  · rw [h]
    unfold Congruent
    rw [Nat.xor_cancel_left]
    exact isMultiple_self _

theorem crcBits_lt (j : Nat) : ∀ {s : Nat}, s < 256 → crcBits j s < 256 := by
  induction j with
  | zero => intro s hs; simpa [crcBits] using hs
  | succ j ih => intro s hs; simp only [crcBits]; exact ih (crcShift_lt hs)

/-- The inner loop run `j` times multiplies the register by `x^j` modulo the generator. -/
theorem crcBits_congruent (j : Nat) :
    ∀ {s : Nat}, s < 256 → Congruent (s <<< j) (crcBits j s) := by
  induction j with
  | zero => intro s _; simpa [crcBits] using Congruent.refl s
  | succ j ih =>
    intro s hs
    simp only [crcBits]
    have e : s <<< (j + 1) = (s <<< 1) <<< j := by
      rw [Nat.add_comm]; exact Nat.shiftLeft_add s 1 j
    rw [e]
    exact ((crcShift_congruent hs).shiftLeft j).trans (ih (crcShift_lt hs))

theorem payloadPoly_append (l : List Nat) (b : Nat) :
    payloadPoly (l ++ [b]) = payloadPoly l * 256 + b := by
  simp [payloadPoly, List.foldl_append]

theorem take_succ_getD (data : List Nat) (i : Nat) (hi : i < data.length) :
    data.take (i + 1) = data.take i ++ [data.getD i 0] := by
  rw [List.take_succ]
  simp [List.getD, List.getElem?_eq_getElem hi]

/-- Loop invariant of the outer loop: the register is below 256 and congruent to
`M(x) * x^8` for the bytes consumed so far. -/
theorem crcLoop_invariant (data : List Nat) (hbytes : ∀ b ∈ data, b < 256) (n : Nat) :
    ∀ (i crc : Nat), i + n ≤ data.length → crc < 256 →
      Congruent (payloadPoly (data.take i) <<< 8) crc →
      crcLoop data n i crc < 256 ∧
        Congruent (payloadPoly (data.take (i + n)) <<< 8) (crcLoop data n i crc) := by
  induction n with
  | zero => intro i crc _ hc hcong; exact ⟨hc, hcong⟩
  | succ n ih =>
    intro i crc hlen hc hcong
    simp only [crcLoop]
    have hi : i < data.length := by omega
    have hb : data.getD i 0 < 256 := by
      apply hbytes
      simp [List.getD, List.getElem?_eq_getElem hi]
    have hx : crc ^^^ data.getD i 0 < 256 := by
      have := Nat.xor_lt_two_pow (n := 8) (by simpa using hc) (by simpa using hb)
      simpa using this
    rw [Nat.mod_eq_of_lt hx]
    have e : i + (n + 1) = (i + 1) + n := by omega
    rw [e]
    apply ih (i + 1) _ (by omega) (crcBits_lt 8 hx)
    rw [take_succ_getD data i hi, payloadPoly_append, mul_256_add _ _ hb]
    exact ((hcong.xor_right _).shiftLeft 8).trans (crcBits_congruent 8 hx)


/-! ## The long division computes the remainder -/

theorem lt_two_pow_gf2LengthAux (fuel : Nat) :
    ∀ a : Nat, a ≤ fuel → a < 2 ^ gf2LengthAux fuel a := by
  induction fuel with
  | zero => intro a ha; simp [gf2LengthAux]; omega
  | succ fuel ih =>
    intro a ha
    simp only [gf2LengthAux]
    split
    · next h => simp [h]
    · next h =>
      have := ih (a / 2) (by omega)
      rw [Nat.pow_succ]
      omega

theorem lt_two_pow_gf2Length (a : Nat) : a < 2 ^ gf2Length a :=
  lt_two_pow_gf2LengthAux a a (Nat.le_refl a)

theorem generator_shiftLeft_lt (k : Nat) : generator <<< k < 2 ^ (8 + k + 1) := by
  rw [Nat.shiftLeft_eq]
  have e : 2 ^ (8 + k + 1) = 2 ^ 9 * 2 ^ k := by
    rw [show 8 + k + 1 = 9 + k by omega, Nat.pow_add]
  rw [e]
  exact Nat.mul_lt_mul_of_pos_right (by decide) (Nat.two_pow_pos k)

theorem generator_shiftLeft_testBit (k : Nat) : (generator <<< k).testBit (8 + k) = true := by
  rw [Nat.testBit_shiftLeft]
  have : 8 + k - k = 8 := by omega
  rw [this]
  simp
  decide

/-- Long division by the generator leaves a polynomial of degree below 8 that is
congruent to the dividend. -/
theorem gf2ModAux_generator (k : Nat) :
    ∀ a : Nat, a < 2 ^ (8 + k) →
      gf2ModAux generator 8 k a < 256 ∧ Congruent a (gf2ModAux generator 8 k a) := by
  induction k with
  | zero => intro a ha; exact ⟨by simpa [gf2ModAux] using ha, Congruent.refl a⟩
  | succ k ih =>
    intro a ha
    simp only [gf2ModAux]
    by_cases hb : a.testBit (8 + k) = true
    · rw [if_pos hb]
      have hlt : a ^^^ (generator <<< k) < 2 ^ (8 + k + 1) :=
        Nat.xor_lt_two_pow ha (generator_shiftLeft_lt k)
      have hbit : (a ^^^ (generator <<< k)).testBit (8 + k) = false := by
        rw [Nat.testBit_xor, hb, generator_shiftLeft_testBit]; rfl
      obtain ⟨h1, h2⟩ := ih _ (lt_two_pow_of_testBit_false hlt hbit)
      refine ⟨h1, Congruent.trans ?_ h2⟩
      unfold Congruent
      rw [Nat.xor_cancel_left]
      exact isMultiple_shiftLeft (isMultiple_self _) k
    · rw [if_neg hb]
      have hb' : a.testBit (8 + k) = false := by simpa using hb
      exact ih a (lt_two_pow_of_testBit_false ha hb')

theorem gf2Length_generator : gf2Length generator = 9 := by decide

theorem gf2Mod_generator_lt (a : Nat) : gf2Mod a generator < 256 := by
  unfold gf2Mod
  rw [gf2Length_generator]
  apply (gf2ModAux_generator _ a _).1
  exact lt_of_lt_of_le (lt_two_pow_gf2Length a) (Nat.pow_le_pow_right (by decide) (by omega))

theorem gf2Mod_generator_congruent (a : Nat) : Congruent a (gf2Mod a generator) := by
  unfold gf2Mod
  rw [gf2Length_generator]
  apply (gf2ModAux_generator _ a _).2
  exact lt_of_lt_of_le (lt_two_pow_gf2Length a) (Nat.pow_le_pow_right (by decide) (by omega))

/-- Characterisation of the reference: `r` is `gf2Mod a generator` exactly when `r` has
degree below 8 and `a + r` is a multiple of the generator. -/
theorem gf2Mod_generator_unique (a r : Nat) :
    r = gf2Mod a generator ↔ r < 256 ∧ Congruent a r := by
  constructor
  · rintro rfl
    exact ⟨gf2Mod_generator_lt a, gf2Mod_generator_congruent a⟩
  · rintro ⟨hr, hc⟩
    exact (hc.symm.trans (gf2Mod_generator_congruent a)).eq_of_lt hr (gf2Mod_generator_lt a)

/-- The register after the loop of `crcChecksum` over the first `sz` bytes is the
reference CRC-8 of those bytes. -/
theorem crcLoop_eq_crc8 (data : List Nat) (sz : Nat) (hsz : sz ≤ data.length)
    (hbytes : ∀ b ∈ data, b < 256) : crcLoop data sz 0 0 = crc8 (data.take sz) := by
  have h := crcLoop_invariant data hbytes sz 0 0 (by omega) (by decide)
    (by simpa [payloadPoly] using Congruent.refl 0)
  rw [Nat.zero_add] at h
  exact (gf2Mod_generator_unique _ _).2 ⟨h.1, h.2⟩

/-! ## Claims: the checksum validator -/

set_option maxRecDepth 20000 in
theorem xor_POLYNOMIAL_mod : ∀ crc : Nat, crc < 256 →
    ((crc <<< 1) ^^^ POLYNOMIAL) % 256 = ((crc <<< 1) % 256) ^^^ 0x31 := by
  decide

theorem crcChecksum_eq_true_iff (data : List Nat) (sz c : Nat) (hsz : sz ≤ data.length)
    (hbytes : ∀ b ∈ data, b < 256) :
    crcChecksum data sz c = true ↔ c = crc8 (data.take sz) := by
  unfold crcChecksum
  rw [beq_iff_eq, crcLoop_eq_crc8 data sz hsz hbytes]
  exact eq_comm

/-- C3. For every byte sequence `data`, every size `sz` not beyond its length and every
checksum `c`, `crcChecksum data sz c` is true exactly when `c` is the reference CRC-8 of
the first `sz` bytes, the remainder of `M(x) * x^8` modulo `x^8 + x^5 + x^4 + 1` over
GF(2); and XORing the constant 0x131 into the 8-bit register after the shift acts as
XORing 0x31. -/
theorem crcChecksum_iff_crc8 (data : List Nat) (sz c : Nat) (hsz : sz ≤ data.length)
    (hbytes : ∀ b ∈ data, b < 256) :
    (crcChecksum data sz c = true ↔ c = crc8 (data.take sz)) ∧
      (∀ crc, crc < 256 →
        ((crc <<< 1) ^^^ POLYNOMIAL) % 256 = ((crc <<< 1) % 256) ^^^ 0x31) :=
  ⟨crcChecksum_eq_true_iff data sz c hsz hbytes, xor_POLYNOMIAL_mod⟩

theorem crcChecksum_iff_crc8_witness :
    (crcChecksum [0x66, 0x05, 0x77] 2 0xFA = true ↔ 0xFA = crc8 [0x66, 0x05]) ∧
      crcChecksum [0x66, 0x05, 0x77] 2 0xFA = true ∧
      crcChecksum [0x66, 0x05, 0x77] 2 0xFB = false :=
  ⟨(crcChecksum_iff_crc8 [0x66, 0x05, 0x77] 2 0xFA (by decide) (by decide)).1,
    by decide, by decide⟩


theorem payloadPoly_pair (d0 d1 : Nat) (h1 : d1 < 256) :
    payloadPoly [d0, d1] = (d0 <<< 8) ^^^ d1 := by
  have : payloadPoly [d0, d1] = d0 * 256 + d1 := by simp [payloadPoly]
  rw [this, mul_256_add _ _ h1]

/-- Payloads with the same reference CRC-8 differ by a polynomial `e` for which `e * x^8`
is a multiple of the generator. -/
theorem isMultiple_of_crc8_eq (l₁ l₂ : List Nat) (h : crc8 l₁ = crc8 l₂) :
    IsMultiple generator ((payloadPoly l₁ ^^^ payloadPoly l₂) <<< 8) := by
  have h₁ : Congruent (payloadPoly l₁ <<< 8) (crc8 l₁) := gf2Mod_generator_congruent _
  have h₂ : Congruent (payloadPoly l₂ <<< 8) (crc8 l₂) := gf2Mod_generator_congruent _
  rw [← h] at h₂
  have := h₁.trans h₂.symm
  unfold Congruent at this
  rwa [← shiftLeft_xor] at this

set_option maxRecDepth 20000 in
theorem gf2Mod_two_pow_ne_zero : ∀ j : Nat, j < 16 → gf2Mod (2 ^ j <<< 8) generator ≠ 0 := by
  decide

/-- A single-bit error polynomial `x^j`, `j < 16`, is not cancelled by the generator. -/
theorem not_isMultiple_two_pow (j : Nat) (hj : j < 16) :
    ¬ IsMultiple generator (2 ^ j <<< 8) := by
  intro h
  have hc : Congruent (2 ^ j <<< 8) 0 := by
    unfold Congruent
    rwa [Nat.xor_zero]
  have := (gf2Mod_generator_unique (2 ^ j <<< 8) 0).2 ⟨by decide, hc⟩
  exact gf2Mod_two_pow_ne_zero j hj this.symm

theorem xor_two_pow_lt {d k : Nat} (hd : d < 256) (hk : k < 8) : d ^^^ 2 ^ k < 256 := by
  have h2 : 2 ^ k < 2 ^ 8 := Nat.pow_lt_pow_right (by decide) hk
  have := Nat.xor_lt_two_pow (n := 8) (by simpa using hd) h2
  simpa using this

theorem xor_two_pow_ne (c k : Nat) : c ^^^ 2 ^ k ≠ c := by
  intro h
  have h1 : c ^^^ (c ^^^ 2 ^ k) = c ^^^ c := by rw [h]
  rw [Nat.xor_cancel_left, Nat.xor_self] at h1
  exact absurd h1 (Nat.pos_iff_ne_zero.mp (Nat.two_pow_pos k))

/-- C4. Single-bit-error detection: when `crcChecksum` accepts a 2-byte payload with a
checksum byte, flipping any one bit of the first payload byte, of the second payload
byte, or of the checksum byte makes `crcChecksum` return false. -/
theorem crcChecksum_single_bit_error (d0 d1 c k : Nat) (h0 : d0 < 256) (h1 : d1 < 256)
    (hk : k < 8) (hok : crcChecksum [d0, d1] 2 c = true) :
    crcChecksum [d0 ^^^ 2 ^ k, d1] 2 c = false ∧
      crcChecksum [d0, d1 ^^^ 2 ^ k] 2 c = false ∧
      crcChecksum [d0, d1] 2 (c ^^^ 2 ^ k) = false := by
  have hb : ∀ x y : Nat, x < 256 → y < 256 → ∀ b ∈ [x, y], b < 256 := by
    intro x y hx hy b hb
    simp at hb
    rcases hb with rfl | rfl <;> assumption
  have hc : c = crc8 [d0, d1] :=
    (crcChecksum_eq_true_iff [d0, d1] 2 c (by simp) (hb _ _ h0 h1)).1 hok
  have h0' := xor_two_pow_lt h0 hk
  have h1' := xor_two_pow_lt h1 hk
  refine ⟨?_, ?_, ?_⟩
  · rw [Bool.eq_false_iff]
    intro h
    have hc' : c = crc8 [d0 ^^^ 2 ^ k, d1] :=
      (crcChecksum_eq_true_iff [d0 ^^^ 2 ^ k, d1] 2 c (by simp) (hb _ _ h0' h1)).1 h
    have hm := isMultiple_of_crc8_eq _ _ (hc.symm.trans hc')
    rw [payloadPoly_pair _ _ h1, payloadPoly_pair _ _ h1] at hm
    have e : (d0 <<< 8 ^^^ d1) ^^^ ((d0 ^^^ 2 ^ k) <<< 8 ^^^ d1) = 2 ^ (k + 8) := by
      rw [xor_xor_xor_comm, Nat.xor_self, Nat.xor_zero, ← shiftLeft_xor,
        Nat.xor_cancel_left, Nat.shiftLeft_eq, Nat.pow_add]
    rw [e] at hm
    exact not_isMultiple_two_pow (k + 8) (by omega) hm
  · rw [Bool.eq_false_iff]
    intro h
    have hc' : c = crc8 [d0, d1 ^^^ 2 ^ k] :=
      (crcChecksum_eq_true_iff [d0, d1 ^^^ 2 ^ k] 2 c (by simp) (hb _ _ h0 h1')).1 h
    have hm := isMultiple_of_crc8_eq _ _ (hc.symm.trans hc')
    rw [payloadPoly_pair _ _ h1, payloadPoly_pair _ _ h1'] at hm
    have e : (d0 <<< 8 ^^^ d1) ^^^ (d0 <<< 8 ^^^ (d1 ^^^ 2 ^ k)) = 2 ^ k := by
      rw [xor_xor_xor_comm, Nat.xor_self, Nat.zero_xor, Nat.xor_cancel_left]
    rw [e] at hm
    exact not_isMultiple_two_pow k (by omega) hm
  · rw [Bool.eq_false_iff]
    intro h
    have hc' : c ^^^ 2 ^ k = crc8 [d0, d1] :=
      (crcChecksum_eq_true_iff [d0, d1] 2 (c ^^^ 2 ^ k) (by simp) (hb _ _ h0 h1)).1 h
    exact xor_two_pow_ne c k (hc'.trans hc.symm)

theorem crcChecksum_single_bit_error_witness :
    crcChecksum [0x66, 0x05] 2 0xFA = true ∧
      crcChecksum [0x66 ^^^ 2 ^ 3, 0x05] 2 0xFA = false ∧
      crcChecksum [0x66, 0x05 ^^^ 2 ^ 3] 2 0xFA = false ∧
      crcChecksum [0x66, 0x05] 2 (0xFA ^^^ 2 ^ 3) = false :=
  ⟨by decide,
    crcChecksum_single_bit_error 0x66 0x05 0xFA 3 (by decide) (by decide) (by decide)
      (by decide)⟩

/-! ## Claims: conversions -/

theorem testBit_0xFFFC (i : Nat) : (0xFFFC : Nat).testBit i = (decide (2 ≤ i) && decide (i < 16)) := by
  have e : (0xFFFC : Nat) = (2 ^ 14 - 1) <<< 2 := by decide
  rw [e, Nat.testBit_shiftLeft, Nat.testBit_two_pow_sub_one]
  by_cases h : 2 ≤ i
  · simp [h]; omega
  · simp [h]

/-- The statement `r &= ~0x0003` clears the low 2 bits of a 16-bit value. -/
theorem clearStatus_eq (r : Nat) (hr : r < 65536) : clearStatus r = r - r % 4 := by
  have hdiv : r - r % 4 = (r >>> 2) <<< 2 := by
    rw [Nat.shiftRight_eq_div_pow, Nat.shiftLeft_eq]
    omega
  have hand : r &&& 0xFFFC = r - r % 4 := by
    rw [hdiv]
    apply Nat.eq_of_testBit_eq
    intro i
    rw [Nat.testBit_and, testBit_0xFFFC, Nat.testBit_shiftLeft, Nat.testBit_shiftRight]
    by_cases h2 : 2 ≤ i
    · have e : 2 + (i - 2) = i := by omega
      by_cases h16 : i < 16
      · simp [h2, h16, e]
      · have : r.testBit i = false := by
          apply Nat.testBit_lt_two_pow
          exact lt_of_lt_of_le hr (by
            calc 65536 = 2 ^ 16 := by norm_num
              _ ≤ 2 ^ i := Nat.pow_le_pow_right (by decide) (by omega))
        simp [h2, h16, e, this]
    · simp [h2]
  unfold clearStatus
  rw [hand]
  exact Nat.mod_eq_of_lt (by omega)

theorem clearStatus_or_three (r : Nat) : clearStatus (r ||| 3) = clearStatus r := by
  unfold clearStatus
  congr 1
  apply Nat.eq_of_testBit_eq
  intro i
  rw [Nat.testBit_and, Nat.testBit_and, Nat.testBit_or, testBit_0xFFFC]
  by_cases h2 : 2 ≤ i
  · have : (3 : Nat).testBit i = false := by
      apply Nat.testBit_lt_two_pow
      exact lt_of_lt_of_le (by decide : 3 < 2 ^ 2) (Nat.pow_le_pow_right (by decide) h2)
    simp [this]
  · simp [h2]

theorem readRaw_lt (s : Handle) (cmd : Nat) : (readRaw s cmd).1 < 65536 := by
  unfold readRaw
  simp only
  split
  · show 1 < 65536
    omega
  · exact Nat.mod_lt _ (by omega)

/-- C5. For the 16-bit raw value `r` that `readRaw` hands back, `temperature()` returns
`-46.85 + 175.72 * m / 65536` in exact arithmetic, where `m` is `r` with its low 2 bits
cleared, and leaves the handle as `readRaw` left it. -/
theorem temperature_eq_formula (s : Handle) :
    (readRaw s TRIGGER_T_MEASUREMENT_HM).1 < 65536 ∧
      (temperature s).1 =
        -46.85 + 175.72 * (((readRaw s TRIGGER_T_MEASUREMENT_HM).1 -
          (readRaw s TRIGGER_T_MEASUREMENT_HM).1 % 4 : Nat) : ℚ) / 65536 ∧
      (temperature s).2 = (readRaw s TRIGGER_T_MEASUREMENT_HM).2 := by
  refine ⟨readRaw_lt _ _, ?_, rfl⟩
  show temperatureOfRaw (readRaw s TRIGGER_T_MEASUREMENT_HM).1 = _
  unfold temperatureOfRaw
  simp only
  rw [clearStatus_eq _ (readRaw_lt _ _)]
  ring

/-- C6. For the 16-bit raw value `r` that `readRaw` hands back, `humidity()` returns
`-6.0 + 125.0 * m / 65536` in exact arithmetic, where `m` is `r` with its low 2 bits
cleared, and leaves the handle as `readRaw` left it. -/
theorem humidity_eq_formula (s : Handle) :
    (readRaw s TRIGGER_RH_MEASUREMENT_HM).1 < 65536 ∧
      (humidity s).1 =
        -6.0 + 125.0 * (((readRaw s TRIGGER_RH_MEASUREMENT_HM).1 -
          (readRaw s TRIGGER_RH_MEASUREMENT_HM).1 % 4 : Nat) : ℚ) / 65536 ∧
      (humidity s).2 = (readRaw s TRIGGER_RH_MEASUREMENT_HM).2 := by
  refine ⟨readRaw_lt _ _, ?_, rfl⟩
  show humidityOfRaw (readRaw s TRIGGER_RH_MEASUREMENT_HM).1 = _
  unfold humidityOfRaw
  simp only
  rw [clearStatus_eq _ (readRaw_lt _ _)]
  ring

/-- C7. Masking property: for every raw value `r`, the temperature conversion of `r`
equals that of `r | 0x3`, and the humidity conversion of `r` equals that of `r | 0x3`. -/
theorem conversion_ignores_status_bits (r : Nat) :
    temperatureOfRaw r = temperatureOfRaw (r ||| 0x3) ∧
      humidityOfRaw r = humidityOfRaw (r ||| 0x3) := by
  unfold temperatureOfRaw humidityOfRaw
  simp only [clearStatus_or_three]
  exact ⟨trivial, trivial⟩

/-! ## Claims: bus traffic -/

/-- C10. `reset()` appends to the log exactly one bus operation, the write of the single
byte `SOFT_RESET` (0xFE) to the handle's address, followed by a delay of 15 ms; it
consumes no response (no read) and leaves the handle's address unchanged. -/
theorem reset_effect (s : Handle) :
    (reset s).i2c_.trace = s.i2c_.trace ++ [Event.write s.addr_ [0xFE], Event.wait 15] ∧
      busOps (reset s).i2c_.trace = busOps s.i2c_.trace ++ [Event.write s.addr_ [0xFE]] ∧
      (reset s).i2c_.rx = s.i2c_.rx ∧
      (reset s).addr_ = s.addr_ := by
  simp [reset, World.write, World.wait_ms, SOFT_RESET, busOps, Event.isBusOp]

/-- C9. For every bus response, `serialNumber` appends to the log exactly four bus
operations, in this order and all on the handle's address: write `[0xFA, 0x0F]`, read 8
bytes, write `[0xFC, 0xC9]`, read 6 bytes; it issues no reset and no delay. -/
theorem serialNumber_trace (s : Handle) (out : List Nat) :
    (serialNumber s out).2.i2c_.trace =
        s.i2c_.trace ++ [Event.write s.addr_ [0xFA, 0x0F], Event.read s.addr_ 8,
          Event.write s.addr_ [0xFC, 0xC9], Event.read s.addr_ 6] ∧
      (serialNumber s out).2.addr_ = s.addr_ := by
  simp [serialNumber, World.write, World.read]


/-- C8. Serial number reassembly: with `A = [a0, .., a7]` the response to the first
transaction and `B = [b0, .., b5]` the response to the second, `serialNumber` leaves
`out[5] = A[0]`, `out[4] = A[2]`, `out[3] = A[4]`, `out[2] = A[6]`, `out[1] = B[0]`,
`out[0] = B[1]`, `out[7] = B[3]`, `out[8] = B[4]`; replacing `A[1]`, `A[3]`, `A[5]`,
`A[7]`, `B[2]` and `B[5]` by any other bytes leaves the output the same. -/
theorem serialNumber_reassembly (addr : Nat) (trace : List Event) (rest : List (List Nat))
    (out : List Nat) (a0 a1 a2 a3 a4 a5 a6 a7 b0 b1 b2 b3 b4 b5 : Nat)
    (a1' a3' a5' a7' b2' b5' : Nat) (hout : 9 ≤ out.length)
    (ha0 : a0 < 256) (ha2 : a2 < 256) (ha4 : a4 < 256) (ha6 : a6 < 256)
    (hb0 : b0 < 256) (hb1 : b1 < 256) (hb3 : b3 < 256) (hb4 : b4 < 256) :
    ((serialNumber ⟨addr, ⟨trace, [a0, a1, a2, a3, a4, a5, a6, a7] ::
        [b0, b1, b2, b3, b4, b5] :: rest⟩⟩ out).1)[5]? = some a0 ∧
      ((serialNumber ⟨addr, ⟨trace, [a0, a1, a2, a3, a4, a5, a6, a7] ::
        [b0, b1, b2, b3, b4, b5] :: rest⟩⟩ out).1)[4]? = some a2 ∧
      ((serialNumber ⟨addr, ⟨trace, [a0, a1, a2, a3, a4, a5, a6, a7] ::
        [b0, b1, b2, b3, b4, b5] :: rest⟩⟩ out).1)[3]? = some a4 ∧
      ((serialNumber ⟨addr, ⟨trace, [a0, a1, a2, a3, a4, a5, a6, a7] ::
        [b0, b1, b2, b3, b4, b5] :: rest⟩⟩ out).1)[2]? = some a6 ∧
      ((serialNumber ⟨addr, ⟨trace, [a0, a1, a2, a3, a4, a5, a6, a7] ::
        [b0, b1, b2, b3, b4, b5] :: rest⟩⟩ out).1)[1]? = some b0 ∧
      ((serialNumber ⟨addr, ⟨trace, [a0, a1, a2, a3, a4, a5, a6, a7] ::
        [b0, b1, b2, b3, b4, b5] :: rest⟩⟩ out).1)[0]? = some b1 ∧
      ((serialNumber ⟨addr, ⟨trace, [a0, a1, a2, a3, a4, a5, a6, a7] ::
        [b0, b1, b2, b3, b4, b5] :: rest⟩⟩ out).1)[7]? = some b3 ∧
      ((serialNumber ⟨addr, ⟨trace, [a0, a1, a2, a3, a4, a5, a6, a7] ::
        [b0, b1, b2, b3, b4, b5] :: rest⟩⟩ out).1)[8]? = some b4 ∧
      (serialNumber ⟨addr, ⟨trace, [a0, a1', a2, a3', a4, a5', a6, a7'] ::
        [b0, b1, b2', b3, b4, b5'] :: rest⟩⟩ out).1 =
      (serialNumber ⟨addr, ⟨trace, [a0, a1, a2, a3, a4, a5, a6, a7] ::
        [b0, b1, b2, b3, b4, b5] :: rest⟩⟩ out).1 := by
  simp [serialNumber, World.write, World.read, fillBuffer, List.getElem?_set,
    Nat.mod_eq_of_lt, ha0, ha2, ha4, ha6, hb0, hb1, hb3, hb4]
  refine ⟨by omega, by omega, by omega, by omega, by omega, ?_, by omega, by omega⟩
  rintro rfl
  simp at hout


theorem serialNumber_reassembly_witness :
    9 ≤ [0, 0, 0, 0, 0, 0, 0, 0, 0].length ∧
      (serialNumber ⟨0x80, ⟨[], [[10, 11, 12, 13, 14, 15, 16, 17],
        [20, 21, 22, 23, 24, 25]]⟩⟩ [0, 0, 0, 0, 0, 0, 0, 0, 0]).1[5]? = some 10 :=
  ⟨by decide,
    (serialNumber_reassembly 0x80 [] [] [0, 0, 0, 0, 0, 0, 0, 0, 0]
      10 11 12 13 14 15 16 17 20 21 22 23 24 25 0 0 0 0 0 0 (by decide)
      (by decide) (by decide) (by decide) (by decide)
      (by decide) (by decide) (by decide) (by decide)).1⟩

/-! ## The checksum test of `readRaw` at concrete responses -/

/-- C1. At the response `[0x66, 0x05]` with the checksum byte 0x00, which is not the CRC-8
0xFA of the data, `readRaw(0xE3)` returns the combined value 0x6605, not the sentinel 1,
and the log holds the three operations of the reading and no `SOFT_RESET` write. -/
theorem readRaw_checksum_mismatch_no_reset :
    crc8 [0x66, 0x05] = 0xFA ∧
      crcChecksum [0x66, 0x05] 2 0x00 = false ∧
      readRaw ⟨0x80, ⟨[], [[0x66, 0x05], [0x00]]⟩⟩ 0xE3 =
        (0x6605, ⟨0x80, ⟨[Event.write 0x80 [0xE3], Event.read 0x80 2,
          Event.read 0x80 1], []⟩⟩) := by
  decide

/-- C2. At the response `[0x66, 0x05]` with its matching checksum byte 0xFA,
`temperature()` writes the command 0xE3, resets the sensor and returns -46.85, the
conversion of the sentinel 1, while the conversion of the reading 0x6605 is about 23.17. -/
theorem temperature_checksum_match_returns_floor :
    crcChecksum [0x66, 0x05] 2 0xFA = true ∧
      temperature ⟨0x80, ⟨[], [[0x66, 0x05], [0xFA]]⟩⟩ =
        (-46.85, ⟨0x80, ⟨[Event.write 0x80 [0xE3], Event.read 0x80 2, Event.read 0x80 1,
          Event.write 0x80 [0xFE], Event.wait 15], []⟩⟩) ∧
      temperatureOfRaw 0x6605 = 9492137 / 409600 := by
  have h : readRaw ⟨0x80, ⟨[], [[0x66, 0x05], [0xFA]]⟩⟩ TRIGGER_T_MEASUREMENT_HM =
      (1, ⟨0x80, ⟨[Event.write 0x80 [0xE3], Event.read 0x80 2, Event.read 0x80 1,
          Event.write 0x80 [0xFE], Event.wait 15], []⟩⟩) := by decide
  refine ⟨by decide, ?_, ?_⟩
  · unfold temperature
    rw [h]
    have e : clearStatus 1 = 0 := by decide
    simp only [temperatureOfRaw, e]
    norm_num
  · have e : clearStatus 0x6605 = 0x6604 := by decide
    simp only [temperatureOfRaw, e]
    norm_num

/-! ## Claims: the transaction of `readRaw` -/

/-- The log after `readRaw`: the three operations of the reading, then the reset's
write and delay exactly when `crcChecksum` accepted the response. -/
theorem readRaw_trace (s : Handle) (cmd : Nat) :
    (readRaw s cmd).2.addr_ = s.addr_ ∧
      ∃ tail, (readRaw s cmd).2.i2c_.trace =
          s.i2c_.trace ++ ([Event.write s.addr_ [cmd % 256], Event.read s.addr_ 2,
            Event.read s.addr_ 1] ++ tail) ∧
        (tail = [] ∨ tail = [Event.write s.addr_ [SOFT_RESET], Event.wait 15]) := by
  unfold readRaw
  simp only
  split
  · exact ⟨rfl, _, by simp [reset, World.write, World.read, World.wait_ms], Or.inr rfl⟩
  · exact ⟨rfl, _, by simp [World.write, World.read], Or.inl rfl⟩

/-- C12. Transaction framing: for every command byte `cmd` and every bus response, the
first three operations of `readRaw(cmd)` are a write of the 1 byte `[cmd]`, a read of 2
bytes and a read of 1 byte, in this order and on the handle's address; what follows is
nothing or the reset's single write (with its delay). -/
theorem readRaw_framing (s : Handle) (cmd : Nat) (hcmd : cmd < 256) :
    ∃ tail, (readRaw s cmd).2.i2c_.trace =
        s.i2c_.trace ++ ([Event.write s.addr_ [cmd], Event.read s.addr_ 2,
          Event.read s.addr_ 1] ++ tail) ∧
      (tail = [] ∨ tail = [Event.write s.addr_ [SOFT_RESET], Event.wait 15]) ∧
      (busOps tail = [] ∨ busOps tail = [Event.write s.addr_ [0xFE]]) := by
  obtain ⟨_, tail, h, ht⟩ := readRaw_trace s cmd
  rw [Nat.mod_eq_of_lt hcmd] at h
  refine ⟨tail, h, ht, ?_⟩
  rcases ht with rfl | rfl
  · left; rfl
  · right; rfl

theorem readRaw_framing_witness :
    (0xE3 : Nat) < 256 ∧
      ∃ tail, (readRaw ⟨0x80, ⟨[], [[0x66, 0x05], [0xFA]]⟩⟩ 0xE3).2.i2c_.trace =
        [] ++ ([Event.write 0x80 [0xE3], Event.read 0x80 2, Event.read 0x80 1] ++ tail) ∧
      (tail = [] ∨ tail = [Event.write 0x80 [SOFT_RESET], Event.wait 15]) ∧
      (busOps tail = [] ∨ busOps tail = [Event.write 0x80 [0xFE]]) :=
  ⟨by decide, readRaw_framing ⟨0x80, ⟨[], [[0x66, 0x05], [0xFA]]⟩⟩ 0xE3 (by decide)⟩

/-- C11. At the response `[0x66, 0x05]` with its matching checksum byte 0xFA,
`readRaw(0xE3)` returns the sentinel 1, not the big-endian value 0x6605, and the log
holds a `SOFT_RESET` write and a 15 ms delay after the three operations of the reading. -/
theorem readRaw_checksum_match_resets :
    crc8 [0x66, 0x05] = 0xFA ∧
      crcChecksum [0x66, 0x05] 2 0xFA = true ∧
      readRaw ⟨0x80, ⟨[], [[0x66, 0x05], [0xFA]]⟩⟩ 0xE3 =
        (1, ⟨0x80, ⟨[Event.write 0x80 [0xE3], Event.read 0x80 2, Event.read 0x80 1,
          Event.write 0x80 [0xFE], Event.wait 15], []⟩⟩) ∧
      0x66 * 256 + 0x05 = 0x6605 := by
  decide

/-- C14. For every bus response, the first bus operation of `temperature()` is a write of
the single byte 0xE3 (`TRIGGER_T_MEASUREMENT_HM`) and the first bus operation of
`humidity()` is a write of the single byte 0xE5 (`TRIGGER_RH_MEASUREMENT_HM`). -/
theorem trigger_commands_hold_master (s : Handle) :
    (∃ rest, (temperature s).2.i2c_.trace =
        s.i2c_.trace ++ Event.write s.addr_ [0xE3] :: rest) ∧
      (∃ rest, (humidity s).2.i2c_.trace =
        s.i2c_.trace ++ Event.write s.addr_ [0xE5] :: rest) ∧
      TRIGGER_T_MEASUREMENT_HM = 0xE3 ∧ TRIGGER_RH_MEASUREMENT_HM = 0xE5 := by
  refine ⟨?_, ?_, rfl, rfl⟩
  · obtain ⟨_, tail, h, _⟩ := readRaw_trace s TRIGGER_T_MEASUREMENT_HM
    exact ⟨_, h⟩
  · obtain ⟨_, tail, h, _⟩ := readRaw_trace s TRIGGER_RH_MEASUREMENT_HM
    exact ⟨_, h⟩

/-! ## Claims: conversion values -/

theorem clearStatus_values :
    clearStatus 0 = 0 ∧ clearStatus 1 = 0 ∧ clearStatus 2 = 0 ∧ clearStatus 3 = 0 ∧
      clearStatus 65535 = 65532 := by
  decide

/-- C13, as stated. The humidity conversion of the raw value 65535 is not within 0.005 of
118.94. -/
theorem humidity_endpoint_not_118_94 :
    ¬ (|humidityOfRaw 65535 - 118.94| < 0.005) := by
  simp only [humidityOfRaw, clearStatus_values.2.2.2.2]
  norm_num [abs_lt]

/-- C13, amended. For raw = 0 the temperature conversion is -46.85 and the humidity
conversion is -6.0; for raw = 65535, masked to 65532, the temperature conversion is within
0.005 of 128.86 and the humidity conversion is within 0.005 of 118.99. -/
theorem conversion_endpoints :
    temperatureOfRaw 0 = -46.85 ∧ humidityOfRaw 0 = -6.0 ∧
      clearStatus 65535 = 65532 ∧
      |temperatureOfRaw 65535 - 128.86| < 0.005 ∧
      |humidityOfRaw 65535 - 118.99| < 0.005 := by
  simp only [temperatureOfRaw, humidityOfRaw, clearStatus_values.1,
    clearStatus_values.2.2.2.2]
  norm_num [abs_lt]

/-! ## Claims: the sentinel under floating-point evaluation -/

/-- The integer chosen by `roundHalfEven` is a nearest one: it differs from `n / d` by at
most one half. -/
theorem roundHalfEven_nearest (n d : Nat) (hd : 0 < d) :
    2 * (roundHalfEven n d * d) ≤ 2 * n + d ∧ 2 * n ≤ 2 * (roundHalfEven n d * d) + d := by
  have hdm := Nat.div_add_mod n d
  have hlt := Nat.mod_lt n hd
  have hq : n / d * d = d * (n / d) := Nat.mul_comm _ _
  have hq1 : (n / d + 1) * d = d * (n / d) + d := by rw [Nat.add_mul, hq, Nat.one_mul]
  unfold roundHalfEven
  simp only
  split_ifs <;> simp only [hq, hq1] <;> omega

set_option maxRecDepth 20000 in
/-- Rounding to nearest, ties to even, at known values: 0.1 in `double` and in `float`,
1/3 in `float`, the ties 2^24 + 1 and 2^24 + 3, and a subnormal tie. -/
theorem round_samples :
    binary64.round ⟨1, 10⟩ = ⟨7205759403792794, 2 ^ 56⟩ ∧
      binary32.round ⟨1, 10⟩ = ⟨13421773, 2 ^ 27⟩ ∧
      binary32.round ⟨1, 3⟩ = ⟨11184811, 2 ^ 25⟩ ∧
      binary32.round ⟨2 ^ 24 + 1, 1⟩ = ⟨2 ^ 24, 1⟩ ∧
      binary32.round ⟨2 ^ 24 + 3, 1⟩ = ⟨2 ^ 24 + 4, 1⟩ ∧
      binary32.round ⟨3, 2 ^ 150⟩ = ⟨2, 2 ^ 149⟩ := by
  decide

theorem crcLoop_zero (data : List Nat) (hz : ∀ i, data.getD i 0 = 0) (n : Nat) :
    ∀ i, crcLoop data n i 0 = 0 := by
  induction n with
  | zero => intro i; rfl
  | succ n ih =>
    intro i
    simp only [crcLoop, hz i]
    have : crcBits 8 ((0 ^^^ 0) % 256) = 0 := by decide
    rw [this]
    exact ih (i + 1)

/-- C19. An all-zero payload validates against a zero checksum and no other: for every
size `sz`, `crcChecksum` of `sz` zero bytes with checksum `c` is true exactly when `c = 0`;
in particular `crcChecksum([0x00, 0x00], 2, 0x00)` is true, and with size 0 any data is
accepted exactly with `c = 0`. -/
theorem crcChecksum_zero_payload (sz c : Nat) (data : List Nat) :
    (crcChecksum (List.replicate sz 0) sz c = true ↔ c = 0) ∧
      crcChecksum [0x00, 0x00] 2 0x00 = true ∧
      (crcChecksum data 0 c = true ↔ c = 0) := by
  refine ⟨?_, by decide, ?_⟩
  · unfold crcChecksum
    rw [crcLoop_zero _ _ sz 0, beq_iff_eq]
    · exact eq_comm
    · intro i
      simp [List.getD, List.getElem?_replicate]
      split <;> rfl
  · unfold crcChecksum
    simp only [crcLoop, beq_iff_eq]
    exact eq_comm

/-! ## Claims: addresses and command codes on the bus -/

/-- Every event that a call of a public method adds to the log is on the handle's address
and, if a write, carries one of the five payloads in use; the address stays. -/
theorem exec_events (s : Handle) (c : Call) :
    (c.exec s).addr_ = s.addr_ ∧
      ∃ new, (c.exec s).i2c_.trace = s.i2c_.trace ++ new ∧
        new.all (Event.onAddress s.addr_) = true ∧
        new.all (Event.writesOneOf
          [[0xE3], [0xE5], [0xFE], [0xFA, 0x0F], [0xFC, 0xC9]]) = true := by
  cases c with
  | temperature =>
    obtain ⟨ha, tail, h, ht⟩ := readRaw_trace s TRIGGER_T_MEASUREMENT_HM
    refine ⟨ha, _, h, ?_, ?_⟩ <;> rcases ht with rfl | rfl <;>
      simp [Event.onAddress, Event.writesOneOf, TRIGGER_T_MEASUREMENT_HM, SOFT_RESET]
  | humidity =>
    obtain ⟨ha, tail, h, ht⟩ := readRaw_trace s TRIGGER_RH_MEASUREMENT_HM
    refine ⟨ha, _, h, ?_, ?_⟩ <;> rcases ht with rfl | rfl <;>
      simp [Event.onAddress, Event.writesOneOf, TRIGGER_RH_MEASUREMENT_HM, SOFT_RESET]
  | reset =>
    refine ⟨rfl, [Event.write s.addr_ [0xFE], Event.wait 15], ?_, ?_, ?_⟩
    · simp [Call.exec, reset, World.write, World.wait_ms, SOFT_RESET]
    · simp [Event.onAddress]
    · simp [Event.writesOneOf]
  | serialNumber out =>
    refine ⟨rfl, [Event.write s.addr_ [0xFA, 0x0F], Event.read s.addr_ 8,
      Event.write s.addr_ [0xFC, 0xC9], Event.read s.addr_ 6], ?_, ?_, ?_⟩
    · simp [Call.exec, serialNumber, World.write, World.read]
    · simp [Event.onAddress]
    · simp [Event.writesOneOf]

theorem run_events (calls : List Call) :
    ∀ s : Handle, (run s calls).addr_ = s.addr_ ∧
      ∃ new, (run s calls).i2c_.trace = s.i2c_.trace ++ new ∧
        new.all (Event.onAddress s.addr_) = true ∧
        new.all (Event.writesOneOf
          [[0xE3], [0xE5], [0xFE], [0xFA, 0x0F], [0xFC, 0xC9]]) = true := by
  induction calls with
  | nil => intro s; exact ⟨rfl, [], by simp [run], rfl, rfl⟩
  | cons c cs ih =>
    intro s
    obtain ⟨ha, new₁, h₁, a₁, p₁⟩ := exec_events s c
    obtain ⟨ha', new₂, h₂, a₂, p₂⟩ := ih (c.exec s)
    have hrun : run s (c :: cs) = run (c.exec s) cs := rfl
    rw [hrun]
    refine ⟨ha'.trans ha, new₁ ++ new₂, ?_, ?_, ?_⟩
    · rw [h₂, h₁, List.append_assoc]
    · rw [ha] at a₂
      rw [List.all_append, a₁, a₂]; rfl
    · rw [List.all_append, p₁, p₂]; rfl

theorem writesOneOf_not_hasCommandIn (e : Event)
    (h : e.writesOneOf [[0xE3], [0xE5], [0xFE], [0xFA, 0x0F], [0xFC, 0xC9]] = true) :
    e.hasCommandIn [0xF3, 0xF5, 0xE6, 0xE7] = false := by
  cases e with
  | write a bytes =>
    have hm : bytes ∈ [[0xE3], [0xE5], [0xFE], [0xFA, 0x0F], [0xFC, 0xC9]] := by
      simpa [Event.writesOneOf] using h
    simp only [List.mem_cons, List.mem_singleton, List.not_mem_nil, or_false] at hm
    rcases hm with rfl | rfl | rfl | rfl | rfl <;> rfl
  | read a n => rfl
  | wait ms => rfl

/-- C18. For every sequence of calls of `temperature()`, `humidity()`, `reset()` and
`serialNumber()` and every bus response, every write added to the log carries one of the
payloads `[0xE3]`, `[0xE5]`, `[0xFE]`, `[0xFA, 0x0F]`, `[0xFC, 0xC9]`, and no write
carries 0xF3, 0xF5, 0xE6 or 0xE7 as its command byte. -/
theorem unused_commands_never_written (s : Handle) (calls : List Call) :
    ∃ new, (run s calls).i2c_.trace = s.i2c_.trace ++ new ∧
      new.all (Event.writesOneOf
        [[0xE3], [0xE5], [0xFE], [0xFA, 0x0F], [0xFC, 0xC9]]) = true ∧
      new.any (Event.hasCommandIn [TRIGGER_T_MEASUREMENT_NHM, TRIGGER_RH_MEASUREMENT_NHM,
        USER_REGISTER_W, USER_REGISTER_R]) = false := by
  obtain ⟨_, new, h, _, hp⟩ := run_events calls s
  refine ⟨new, h, hp, ?_⟩
  rw [List.any_eq_false]
  intro e he
  rw [List.all_eq_true] at hp
  have := writesOneOf_not_hasCommandIn e (hp e he)
  simpa [TRIGGER_T_MEASUREMENT_NHM, TRIGGER_RH_MEASUREMENT_NHM, USER_REGISTER_W,
    USER_REGISTER_R] using this

/-- C15, as stated. A handle constructed without an explicit address does not hold 0x40:
it holds 0x80, and the write of its `reset()` goes to the address 0x80. -/
theorem default_address_not_0x40 :
    (constructDefault ⟨[], []⟩).addr_ ≠ 0x40 ∧
      (constructDefault ⟨[], []⟩).addr_ = 0x80 ∧
      (reset (constructDefault ⟨[], []⟩)).i2c_.trace =
        [Event.write 0x80 [0xFE], Event.wait 15] := by
  decide

/-- C15, amended. A handle constructed without an explicit address holds 0x80, the 7-bit
address 0x40 shifted left by one bit, and every bus write and read added to the log by
`temperature()`, `humidity()`, `reset()` and `serialNumber()` carries that address. -/
theorem default_address_on_every_operation (w : World) (c : Call) :
    (constructDefault w).addr_ = 0x80 ∧ (0x80 : Nat) = 0x40 <<< 1 ∧
      (c.exec (constructDefault w)).addr_ = 0x80 ∧
      ∃ new, (c.exec (constructDefault w)).i2c_.trace = w.trace ++ new ∧
        new.all (Event.onAddress 0x80) = true := by
  obtain ⟨ha, new, h, a, _⟩ := exec_events (constructDefault w) c
  exact ⟨rfl, rfl, ha, new, h, a⟩

/-! ## Claims: the write set of `serialNumber` -/

/-- C16. Write set of `serialNumber`: for every output buffer of at least 9 slots and
every bus response, the buffer keeps its length, every position other than 0, 1, 2, 3, 4,
5, 7 and 8 (position 6, and every position from 9 on) keeps its value, and the values
left at the positions 0, 1, 2, 3, 4, 5, 7 and 8 do not depend on what the buffer held. -/
theorem serialNumber_write_set (s : Handle) (out out₂ : List Nat) (i : Nat)
    (hout : 9 ≤ out.length) (hout₂ : 9 ≤ out₂.length) :
    (serialNumber s out).1.length = out.length ∧
      (serialNumber s out).1[6]? = out[6]? ∧
      (i = 6 ∨ 9 ≤ i → (serialNumber s out).1[i]? = out[i]?) ∧
      (i ∈ [0, 1, 2, 3, 4, 5, 7, 8] →
        (serialNumber s out₂).1[i]? = (serialNumber s out).1[i]?) := by
  refine ⟨?_, ?_, ?_, ?_⟩
  · simp [serialNumber]
  · simp [serialNumber, List.getElem?_set]
  · intro hi
    rcases hi with rfl | hi
    · simp [serialNumber, List.getElem?_set]
    · have h0 : ¬ 0 = i := by omega
      have h1 : ¬ 1 = i := by omega
      have h2 : ¬ 2 = i := by omega
      have h3 : ¬ 3 = i := by omega
      have h4 : ¬ 4 = i := by omega
      have h5 : ¬ 5 = i := by omega
      have h7 : ¬ 7 = i := by omega
      have h8 : ¬ 8 = i := by omega
      simp [serialNumber, List.getElem?_set, h0, h1, h2, h3, h4, h5, h7, h8]
  · intro hi
    have l : ∀ k, k < 9 → k < out.length := fun k hk => by omega
    have l₂ : ∀ k, k < 9 → k < out₂.length := fun k hk => by omega
    simp only [List.mem_cons, List.mem_singleton, List.not_mem_nil, or_false] at hi
    rcases hi with rfl | rfl | rfl | rfl | rfl | rfl | rfl | rfl <;>
      simp [serialNumber, List.getElem?_set, l, l₂]

theorem serialNumber_write_set_witness :
    (serialNumber ⟨0x80, ⟨[], [[10, 11, 12, 13, 14, 15, 16, 17],
        [20, 21, 22, 23, 24, 25]]⟩⟩ [1, 2, 3, 4, 5, 6, 7, 8, 9, 10]).1[6]? = some 7 ∧
      (serialNumber ⟨0x80, ⟨[], [[10, 11, 12, 13, 14, 15, 16, 17],
        [20, 21, 22, 23, 24, 25]]⟩⟩ [1, 2, 3, 4, 5, 6, 7, 8, 9, 10]).1[9]? = some 10 ∧
      (serialNumber ⟨0x80, ⟨[], [[10, 11, 12, 13, 14, 15, 16, 17],
        [20, 21, 22, 23, 24, 25]]⟩⟩ [0, 0, 0, 0, 0, 0, 0, 0, 0]).1[8]? =
      (serialNumber ⟨0x80, ⟨[], [[10, 11, 12, 13, 14, 15, 16, 17],
        [20, 21, 22, 23, 24, 25]]⟩⟩ [1, 2, 3, 4, 5, 6, 7, 8, 9, 10]).1[8]? :=
  ⟨(serialNumber_write_set ⟨0x80, ⟨[], [[10, 11, 12, 13, 14, 15, 16, 17],
        [20, 21, 22, 23, 24, 25]]⟩⟩ [1, 2, 3, 4, 5, 6, 7, 8, 9, 10]
        [0, 0, 0, 0, 0, 0, 0, 0, 0] 9 (by decide) (by decide)).2.1,
    (serialNumber_write_set ⟨0x80, ⟨[], [[10, 11, 12, 13, 14, 15, 16, 17],
        [20, 21, 22, 23, 24, 25]]⟩⟩ [1, 2, 3, 4, 5, 6, 7, 8, 9, 10]
        [0, 0, 0, 0, 0, 0, 0, 0, 0] 9 (by decide) (by decide)).2.2.1 (Or.inr (by decide)),
    (serialNumber_write_set ⟨0x80, ⟨[], [[10, 11, 12, 13, 14, 15, 16, 17],
        [20, 21, 22, 23, 24, 25]]⟩⟩ [1, 2, 3, 4, 5, 6, 7, 8, 9, 10]
        [0, 0, 0, 0, 0, 0, 0, 0, 0] 8 (by decide) (by decide)).2.2.2 (by decide)⟩

end SHT21
